import Mathlib

/-
  Verification of the `arbiter` storage layer of the thanatos repository
  (src/arbiter/src/lib.rs): a growable memory-mapped block store with
  diff-based journaling (`Blocks`), the per-attribute `Column` combining a
  store with an append-only journal of `DiffRecord`s, and the generational
  entity table produced by the `table!` macro.

  Embedding conventions:
  - Bytes are `Nat` kept below 256; `u8` arithmetic is two's-complement
    wrapping (the release-build semantics of the `-`/`+=` operators used in
    `write_diff` and `apply`), written with explicit `% 256`.
  - Memory and file contents are functions `Nat → Nat` from byte offset to
    byte value; block indices are `Nat`; the dirty set is a `Finset Nat`
    mirroring the `BTreeSet<usize>` (iteration in ascending order is
    `Finset.sort`).
  - Rust assertions and fallible operations are `Option`: `none` is the
    panic / error path.
  - `DiffRecord` is the structured content of one journal record exactly as
    serialized by `write_diff` (tick, then the dirty block indices in
    ascending order, then one BLOCK_SIZE delta chunk per listed block) and
    parsed back by `apply`; since every field has a fixed width the byte
    serialization is a bijection and the journal is modelled as a
    `List DiffRecord`.
  - `Column` is modelled at byte granularity: `Mapping<T>` is a pure
    stride-scaling adapter over `Blocks`, so the byte-level store is the
    `T = u8` instance and all journaling claims are stated on it.
-/

namespace Arbiter

/-- `Blocks::BLOCK_SIZE` from src/arbiter/src/lib.rs: 1 MiB. -/
def BLOCK_SIZE : Nat := 1024 * 1024

/-- `Blocks::MAP_SIZE`: the 8 GiB reserved virtual range. -/
def MAP_SIZE : Nat := 8 * 1024 * 1024 * 1024

/-- Wrapping `u8` addition, the semantics of `*current += diff` in
`Blocks::apply`. -/
def wadd (a b : Nat) : Nat := (a + b) % 256

/-- Wrapping `u8` subtraction, the semantics of `old - new` in
`Blocks::write_diff`. For `b < 256` this equals two's-complement
wrapping subtraction. -/
def wsub (a b : Nat) : Nat := (a + 256 - b) % 256

/-- `Tick`: the 64-bit checkpoint counter. -/
structure Tick where
  val : Nat
deriving DecidableEq, Repr

/-- One journal record as serialized by `Blocks::write_diff`: the tick, then
for each dirty block (ascending) its index together with the BLOCK_SIZE-byte
delta chunk, kept here as a function from the offset within the block to the
delta byte. -/
structure DiffRecord where
  tick : Tick
  blocks : List (Nat × (Nat → Nat))

/-- The `Blocks` store. `file` together with `fileSize` models the backing
file (reads beyond `fileSize` yield 0); `map` is the private in-memory
mapping; `dirty`, `length` and `capacity` are the fields of the Rust
struct. -/
structure Blocks where
  file : Nat → Nat
  fileSize : Nat
  map : Nat → Nat
  dirty : Finset Nat
  length : Nat
  capacity : Nat

/-- `Blocks::len`. -/
def Blocks.len (b : Blocks) : Nat := b.length

/-- The body of `Blocks::grow` after its assertion: set the length, round it
up to the next strict block boundary, and if that exceeds the committed
capacity, `ftruncate` the file to the boundary (truncating or zero-extending
it) and map the newly committed region from the file. -/
def Blocks.growF (b : Blocks) (length : Nat) : Blocks :=
  let aligned := length + BLOCK_SIZE - length % BLOCK_SIZE
  if aligned ≤ b.capacity then { b with length := length }
  else
    let file' : Nat → Nat := fun i =>
      if i < aligned then (if i < b.fileSize then b.file i else 0) else 0
    { b with
      length := length
      file := file'
      fileSize := aligned
      map := fun i => if b.capacity ≤ i ∧ i < aligned then file' i else b.map i
      capacity := aligned }

/-- `Blocks::grow`, including the `assert!(self.length <= length)`. -/
def Blocks.grow (b : Blocks) (length : Nat) : Option Blocks :=
  if b.length ≤ length then some (b.growF length) else none

/-- `Blocks::new`: opens (or creates) the backing file, reserves the map,
and starts from `length = 0`, `capacity = 0`, then calls
`grow(self.length)`, i.e. `grow 0` (which always satisfies the assert).
The arguments are the current content and size of the backing file. -/
def Blocks.new (file : Nat → Nat) (fileSize : Nat) : Blocks :=
  Blocks.growF
    { file := file
      fileSize := fileSize
      map := fun _ => 0
      dirty := ∅
      length := 0
      capacity := 0 }
    0

/-- `Blocks::get`: asserts `capacity >= range.end` and returns the bytes of
the mapping in `[start, stop)`. -/
def Blocks.get (b : Blocks) (start stop : Nat) : Option (List Nat) :=
  if stop ≤ b.capacity ∧ start ≤ stop then
    some ((List.range (stop - start)).map fun k => b.map (start + k))
  else none

/-- `Blocks::get_mut` followed by the caller storing `src` through the
returned slice: asserts `capacity >= range.end`, inserts every block index
in `start / BLOCK_SIZE ..= stop / BLOCK_SIZE` into the dirty set, and
overwrites the bytes in `[start, stop)` (stored as `u8`, hence `% 256`). -/
def Blocks.get_mut (b : Blocks) (start stop : Nat) (src : Nat → Nat) : Option Blocks :=
  if stop ≤ b.capacity ∧ start ≤ stop then
    some { b with
      dirty := b.dirty ∪ Finset.Icc (start / BLOCK_SIZE) (stop / BLOCK_SIZE)
      map := fun i => if start ≤ i ∧ i < stop then src (i - start) % 256 else b.map i }
  else none

/-- `Blocks::extend_from_slice`: grow by the slice length and copy it in. -/
def Blocks.extend_from_slice (b : Blocks) (src : Nat → Nat) (srcLen : Nat) : Option Blocks :=
  (b.grow (b.len + srcLen)).bind fun b' => b'.get_mut b.len (b.len + srcLen) src

/-- `Blocks::extend_zeroed`: grow by `length`; no bytes are written. -/
def Blocks.extend_zeroed (b : Blocks) (length : Nat) : Option Blocks :=
  b.grow (b.len + length)

/-- `Blocks::write_diff`: the record emitted for one checkpoint. For each
dirty block (in ascending `BTreeSet` order) the delta chunk holds
`old - new` per byte, `old` being the byte of the on-disk snapshot (the
shared file mapping passed in by `sync`) and `new` the in-memory byte. -/
def Blocks.write_diff (b : Blocks) (tick : Tick) : DiffRecord :=
  { tick := tick
    blocks := (b.dirty.sort (· ≤ ·)).map fun bi =>
      (bi, fun j => wsub (b.file (bi * BLOCK_SIZE + j)) (b.map (bi * BLOCK_SIZE + j))) }

/-- `Blocks::sync`: map the file shared, emit the diff record computed by
`write_diff` against it, copy every dirty block from the in-memory mapping
into the file, flush, and clear the dirty set. Returns the new store and
the record written to the journal. -/
def Blocks.sync (b : Blocks) (tick : Tick) : Blocks × DiffRecord :=
  ({ b with
      file := fun i => if i / BLOCK_SIZE ∈ b.dirty then b.map i else b.file i
      dirty := ∅ },
   b.write_diff tick)

/-- One step of `Blocks::apply`: add the delta chunk `d` of block `bi` onto
the live mapping, wrapping per byte. -/
def applyBlock (m : Nat → Nat) (bi : Nat) (d : Nat → Nat) : Nat → Nat :=
  fun i =>
    if bi * BLOCK_SIZE ≤ i ∧ i < (bi + 1) * BLOCK_SIZE then
      wadd (m i) (d (i - bi * BLOCK_SIZE))
    else m i

/-- `Blocks::apply`: parse the record (block indices, then one
BLOCK_SIZE-byte delta chunk per block), mark every listed block dirty and
add each delta chunk onto the corresponding live block. -/
def Blocks.apply (b : Blocks) (r : DiffRecord) : Blocks :=
  { b with
    dirty := r.blocks.foldl (fun d p => insert p.1 d) b.dirty
    map := r.blocks.foldl (fun m p => applyBlock m p.1 p.2) b.map }

/-- One `write` call against the store: the range written and the bytes
stored through the returned slice. -/
structure WriteOp where
  start : Nat
  stop : Nat
  src : Nat → Nat

/-- A sequence of `get_mut` writes applied in order. -/
def Blocks.writeMany (b : Blocks) (ws : List WriteOp) : Option Blocks :=
  ws.foldlM (fun b w => b.get_mut w.start w.stop w.src) b

/-- `Column`: one store plus its append-only journal of diff records. -/
structure Column where
  data : Blocks
  history : List DiffRecord

/-- `Column::sync`: checkpoint the store, appending the emitted record to
the journal. -/
def Column.sync (c : Column) (tick : Tick) : Column :=
  { data := (c.data.sync tick).1
    history := c.history ++ [(c.data.sync tick).2] }

/-- The header scan of `Column::restore`: read each record's header, skip
its payload, until a record with the requested tick is found; return the
records after it. `none` is the `read_exact` error when the scan runs off
the end of the journal. -/
def findTick : List DiffRecord → Tick → Option (List DiffRecord)
  | [], _ => none
  | r :: rs, t => if r.tick = t then some rs else findTick rs t

/-- `Column::restore`: scan for the record of tick `to`, then read every
remaining record and `apply` it to the live data. `none` is the reported
I/O error when no record carries tick `to`. -/
def Column.restore (c : Column) (tgt : Tick) : Option Column :=
  (findTick c.history tgt).map fun rest =>
    { c with data := rest.foldl Blocks.apply c.data }

/-- Well-formedness of a store: all bytes are `u8` values, every dirty block
lies inside committed capacity, the mapping agrees with the file outside the
dirty blocks (within capacity), and the capacity is block-aligned. These
hold for every store built and maintained through the public operations. -/
def BlocksWF (b : Blocks) : Prop :=
  (∀ i, b.map i < 256) ∧
  (∀ i, b.file i < 256) ∧
  (∀ bi ∈ b.dirty, (bi + 1) * BLOCK_SIZE ≤ b.capacity) ∧
  (∀ i, i < b.capacity → i / BLOCK_SIZE ∉ b.dirty → b.map i = b.file i) ∧
  BLOCK_SIZE ∣ b.capacity

/-- `Generation`: the per-slot counter whose parity encodes liveness. -/
structure Generation where
  val : Nat
deriving DecidableEq, Repr

/-- `Generation::is_dead`: even generations are dead slots. -/
def Generation.is_dead (g : Generation) : Bool := g.val % 2 == 0

/-- `Generation::advance`. -/
def Generation.advance (g : Generation) : Generation := ⟨g.val + 1⟩

/-- `GenerationalIndex`. -/
structure GenerationalIndex where
  generation : Generation
  index : Nat
deriving DecidableEq, Repr

/-- The struct generated by the `table!` macro (e.g. `Players`), at the
typed-view level: each `Column<T>` is represented by its list of logical
rows, and one attribute column of type `α` stands for the macro's parallel
per-attribute columns (which are written and read identically and
independently; `Players` instantiates three of them). The Rust `Vec` free
list is modelled with its top (the `push`/`pop` end) at the list head. -/
structure Table (α : Type) where
  free : List Nat
  generations : List Generation
  attrs : List α

/-- The freshly created table (empty backing files). -/
def Table.empty {α : Type} : Table α := ⟨[], [], []⟩

/-- `insert` from the `table!` macro: pop a free index if one exists,
advance its stored generation and overwrite the attribute row, else append
a new row with generation 1. `none` is the panic of an out-of-range slot
access (free-list entries always lie in range for reachable tables). -/
def Table.insert {α : Type} (t : Table α) (a : α) : Option (Table α × GenerationalIndex) :=
  match t.free with
  | index :: rest =>
    match t.generations[index]? with
    | some g =>
      if index < t.attrs.length then
        some ({ free := rest
                generations := t.generations.set index g.advance
                attrs := t.attrs.set index a },
              ⟨g.advance, index⟩)
      else none
    | none => none
  | [] =>
    some ({ free := []
            generations := t.generations ++ [⟨1⟩]
            attrs := t.attrs ++ [a] },
          ⟨⟨1⟩, (t.generations ++ [Generation.mk 1]).length - 1⟩)

/-- `remove` from the `table!` macro: assert the handle's generation is
live, fetch the slot's stored generation (an out-of-range slot fails the
capacity assertion or the comparison against the zeroed region), assert it
equals the handle's, then push the index on the free list and advance the
stored generation. `none` is the panic path; no field of the returned table
is mutated on it. -/
def Table.remove {α : Type} (t : Table α) (idx : GenerationalIndex) : Option (Table α) :=
  if idx.generation.is_dead then none
  else
    match t.generations[idx.index]? with
    | some g =>
      if idx.generation = g then
        some { t with
          free := idx.index :: t.free
          generations := t.generations.set idx.index g.advance }
      else none
    | none => none

/-- One table operation. -/
inductive TableOp (α : Type) where
  | ins (a : α)
  | rem (idx : GenerationalIndex)

/-- Run one operation; `none` when the operation panics. -/
def Table.step {α : Type} (t : Table α) : TableOp α → Option (Table α)
  | .ins a => (t.insert a).map Prod.fst
  | .rem idx => t.remove idx

/-- Run a sequence of operations from a table. -/
def Table.run {α : Type} (ops : List (TableOp α)) (t : Table α) : Option (Table α) :=
  ops.foldlM Table.step t

/-- Invariant of reachable tables: the free list holds distinct in-range
indices, the attribute column is parallel to the generation column, and a
slot's generation is even exactly when the slot is on the free list. -/
def TableInv {α : Type} (t : Table α) : Prop :=
  t.free.Nodup ∧
  (∀ i ∈ t.free, i < t.generations.length) ∧
  t.attrs.length = t.generations.length ∧
  (∀ i, (h : i < t.generations.length) → ((t.generations[i]).val % 2 = 0 ↔ i ∈ t.free))

/-- All (block index, delta chunk) pairs of a list of records, in order. -/
def recPairs : List DiffRecord → List (Nat × (Nat → Nat))
  | [] => []
  | r :: rs => r.blocks ++ recPairs rs

/-- The plain sum of the delta bytes for block `bi` at in-block offset `j`
across a list of pairs. -/
def matchedSum (L : List (Nat × (Nat → Nat))) (bi j : Nat) : Nat :=
  ((L.filter fun p => p.1 == bi).map fun p => p.2 j).sum

/-- The single record holding, for every block listed by any of the given
records, the per-byte wrapping sum of all their deltas for that block. -/
def sumRecord (t : Tick) (rs : List DiffRecord) : DiffRecord :=
  { tick := t
    blocks := ((recPairs rs).map Prod.fst).dedup.map fun bi =>
      (bi, fun j => matchedSum (recPairs rs) bi j % 256) }

/-! ### Concrete instances used by witnesses and counterexamples -/

/-- A store freshly created on an empty backing file. -/
def wB0 : Blocks := Blocks.new (fun _ => 0) 0

/-- The store after writing one byte through `get_mut 0..5`. -/
def c5b : Blocks := (wB0.get_mut 0 5 (fun _ => 1)).getD wB0

/-- A journal record at tick 5 with no blocks. -/
def c8rec : DiffRecord := ⟨⟨5⟩, []⟩

/-- A column whose journal starts at tick 5. -/
def c8col : Column := ⟨wB0, [c8rec]⟩

/-- The fresh store after a write at byte 5, beyond the logical length but
inside committed capacity. -/
def c9b1 : Blocks := (wB0.get_mut 5 6 (fun _ => 7)).getD wB0

/-- The previous store after `extend_zeroed 10`. -/
def c9b2 : Blocks := (c9b1.extend_zeroed 10).getD c9b1

/-- A store with one dirty block whose file bytes are all 3 and whose
in-memory bytes are all 250. -/
def c4b : Blocks := ⟨fun _ => 3, BLOCK_SIZE, fun _ => 250, {0}, 10, BLOCK_SIZE⟩

/-- The delta chunk of block 0 in the record `c4b` emits. -/
def c4d : Nat → Nat :=
  fun j => wsub (c4b.file (0 * BLOCK_SIZE + j)) (c4b.map (0 * BLOCK_SIZE + j))

/-- A clean column with empty journal. -/
def c10col : Column := ⟨wB0, []⟩

/-- A two-block diff record used by witnesses. -/
def c3r1 : DiffRecord := ⟨⟨1⟩, [(0, fun _ => 1)]⟩

/-- Another diff record touching blocks 0 and 1. -/
def c3r2 : DiffRecord := ⟨⟨2⟩, [(0, fun _ => 2), (1, fun _ => 3)]⟩

/-- The single write mutating the store between the two checkpoints of the
undo-correctness witness. -/
def c2ws : List WriteOp := [⟨0, 1, fun _ => 5⟩]

/-- A fresh column with empty journal. -/
def c2c0 : Column := ⟨wB0, []⟩

/-- The store after checkpoint 1 and the write. -/
def c2b2 : Blocks := ((c2c0.sync ⟨1⟩).data.writeMany c2ws).getD wB0

/-- The column after checkpoint 2. -/
def c2c3 : Column := Column.sync ⟨c2b2, (c2c0.sync ⟨1⟩).history⟩ ⟨2⟩

/-- The column after restoring to tick 1. -/
def c2c4 : Column := (c2c3.restore ⟨1⟩).getD c2c3

/-- The table reached from empty by one insert. -/
def c6t : Table Nat := ⟨[], [⟨1⟩], [5]⟩

/-- A one-row table with a live slot at generation 1. -/
def c7t : Table Nat := ⟨[], [⟨1⟩], [42]⟩

/-! ### Basic helper lemmas -/

theorem BLOCK_SIZE_eq : BLOCK_SIZE = 1048576 := rfl

theorem applyBlock_eq (m : Nat → Nat) (bi : Nat) (d : Nat → Nat) (i : Nat) :
    applyBlock m bi d i =
      if i / BLOCK_SIZE = bi then (m i + d (i % BLOCK_SIZE)) % 256 else m i := by
  simp only [applyBlock, wadd, BLOCK_SIZE_eq]
  split_ifs with h1 h2 h2
  · have : i - bi * 1048576 = i % 1048576 := by omega
    rw [this]
  · exact absurd (by omega) h2
  · exact absurd (by omega) h1
  · rfl

theorem matchedSum_nil (bi j : Nat) : matchedSum [] bi j = 0 := rfl

theorem matchedSum_cons (bk : Nat) (d : Nat → Nat) (L : List (Nat × (Nat → Nat)))
    (bi j : Nat) :
    matchedSum ((bk, d) :: L) bi j =
      if bk = bi then d j + matchedSum L bi j else matchedSum L bi j := by
  simp only [matchedSum, List.filter_cons]
  by_cases h : bk = bi
  · simp [h]
  · simp [h]

theorem matchedSum_append (L1 L2 : List (Nat × (Nat → Nat))) (bi j : Nat) :
    matchedSum (L1 ++ L2) bi j = matchedSum L1 bi j + matchedSum L2 bi j := by
  induction L1 with
  | nil => simp [matchedSum_nil, matchedSum]
  | cons p L ih =>
    obtain ⟨bk, d⟩ := p
    simp only [List.cons_append, matchedSum_cons, ih]
    split_ifs with h <;> omega

theorem matchedSum_eq_zero (L : List (Nat × (Nat → Nat))) (bi j : Nat)
    (h : bi ∉ L.map Prod.fst) : matchedSum L bi j = 0 := by
  induction L with
  | nil => rfl
  | cons p L ih =>
    obtain ⟨bk, d⟩ := p
    simp only [List.map_cons, List.mem_cons] at h
    push_neg at h
    rw [matchedSum_cons, if_neg (fun hh => h.1 hh.symm), ih h.2]

theorem matchedSum_of_nodup (L : List (Nat × (Nat → Nat))) (bi : Nat) (d : Nat → Nat)
    (hnd : (L.map Prod.fst).Nodup) (hmem : (bi, d) ∈ L) (j : Nat) :
    matchedSum L bi j = d j := by
  induction L with
  | nil => simp at hmem
  | cons p L ih =>
    obtain ⟨bk, dk⟩ := p
    simp only [List.map_cons, List.nodup_cons] at hnd
    rcases List.mem_cons.mp hmem with h | h
    · have h1 : bi = bk := congrArg Prod.fst h
      have h2 : d = dk := congrArg Prod.snd h
      subst h1
      subst h2
      rw [matchedSum_cons, if_pos rfl, matchedSum_eq_zero L bi j hnd.1]
      omega
    · have hne : bk ≠ bi := by
        intro he
        exact hnd.1 (he ▸ List.mem_map_of_mem Prod.fst h)
      rw [matchedSum_cons, if_neg hne, ih hnd.2 h]

theorem foldl_applyBlock (L : List (Nat × (Nat → Nat))) (m : Nat → Nat) (i : Nat) :
    (L.foldl (fun acc p => applyBlock acc p.1 p.2) m) i =
      if i / BLOCK_SIZE ∈ L.map Prod.fst then
        (m i + matchedSum L (i / BLOCK_SIZE) (i % BLOCK_SIZE)) % 256
      else m i := by
  induction L generalizing m with
  | nil => simp
  | cons p L ih =>
    obtain ⟨bk, d⟩ := p
    simp only [List.foldl_cons, List.map_cons, List.mem_cons]
    rw [ih, applyBlock_eq, matchedSum_cons]
    have hz := matchedSum_eq_zero L (i / BLOCK_SIZE) (i % BLOCK_SIZE)
    by_cases hbk : bk = i / BLOCK_SIZE <;> by_cases hmem : i / BLOCK_SIZE ∈ L.map Prod.fst
    · rw [if_pos hmem, if_pos hbk.symm, if_pos hbk, if_pos (Or.inl hbk.symm)]
      omega
    · rw [if_neg hmem, if_pos hbk.symm, if_pos hbk, if_pos (Or.inl hbk.symm), hz hmem]
      omega
    · have hbk2 : ¬(i / BLOCK_SIZE = bk) := fun h => hbk h.symm
      rw [if_pos hmem, if_neg hbk2, if_neg hbk, if_pos (Or.inr hmem)]
    · have hbk2 : ¬(i / BLOCK_SIZE = bk) := fun h => hbk h.symm
      rw [if_neg hmem, if_neg hbk2, if_neg hbk, if_neg (by push_neg; exact ⟨hbk2, hmem⟩)]

theorem foldl_insert_dirty (L : List (Nat × (Nat → Nat))) (s : Finset Nat) :
    L.foldl (fun d p => insert p.1 d) s = s ∪ (L.map Prod.fst).toFinset := by
  induction L generalizing s with
  | nil => simp
  | cons p L ih =>
    simp only [List.foldl_cons, List.map_cons, List.toFinset_cons, ih]
    ext a
    simp only [Finset.mem_union, Finset.mem_insert, List.mem_toFinset]
    tauto

theorem recPairs_nil : recPairs [] = [] := rfl

theorem recPairs_cons (r : DiffRecord) (rs : List DiffRecord) :
    recPairs (r :: rs) = r.blocks ++ recPairs rs := rfl

theorem recPairs_perm {rs1 rs2 : List DiffRecord} (h : rs1.Perm rs2) :
    (recPairs rs1).Perm (recPairs rs2) := by
  induction h with
  | nil => exact List.Perm.refl _
  | cons r _ ih => exact (recPairs_cons _ _) ▸ (recPairs_cons _ _) ▸ ih.append_left r.blocks
  | swap r1 r2 l =>
    simp only [recPairs_cons, ← List.append_assoc]
    exact (List.perm_append_comm).append_right (recPairs l)
  | trans _ _ ih1 ih2 => exact ih1.trans ih2

theorem apply_map (rs : List DiffRecord) (b : Blocks) (i : Nat) :
    (rs.foldl Blocks.apply b).map i =
      if i / BLOCK_SIZE ∈ (recPairs rs).map Prod.fst then
        (b.map i + matchedSum (recPairs rs) (i / BLOCK_SIZE) (i % BLOCK_SIZE)) % 256
      else b.map i := by
  induction rs generalizing b with
  | nil => simp [recPairs_nil]
  | cons r rs ih =>
    simp only [List.foldl_cons, recPairs_cons, List.map_append, List.mem_append]
    rw [ih]
    have hone : (Blocks.apply b r).map i =
        if i / BLOCK_SIZE ∈ r.blocks.map Prod.fst then
          (b.map i + matchedSum r.blocks (i / BLOCK_SIZE) (i % BLOCK_SIZE)) % 256
        else b.map i := foldl_applyBlock r.blocks b.map i
    rw [matchedSum_append, hone]
    by_cases h1 : i / BLOCK_SIZE ∈ r.blocks.map Prod.fst
    · by_cases h2 : i / BLOCK_SIZE ∈ (recPairs rs).map Prod.fst
      · rw [if_pos h1, if_pos h2, if_pos (Or.inl h1)]
        omega
      · rw [if_pos h1, if_neg h2, if_pos (Or.inl h1),
          matchedSum_eq_zero _ _ _ h2]
        omega
    · by_cases h2 : i / BLOCK_SIZE ∈ (recPairs rs).map Prod.fst
      · rw [if_neg h1, if_pos h2, if_pos (Or.inr h2),
          matchedSum_eq_zero r.blocks _ _ h1]
        omega
      · rw [if_neg h1, if_neg h2, if_neg (by push_neg; exact ⟨h1, h2⟩)]

theorem apply_dirty (rs : List DiffRecord) (b : Blocks) :
    (rs.foldl Blocks.apply b).dirty = b.dirty ∪ ((recPairs rs).map Prod.fst).toFinset := by
  induction rs generalizing b with
  | nil => simp [recPairs_nil]
  | cons r rs ih =>
    simp only [List.foldl_cons, recPairs_cons, List.map_append, List.toFinset_append, ih]
    rw [show (Blocks.apply b r).dirty = b.dirty ∪ (r.blocks.map Prod.fst).toFinset from
      foldl_insert_dirty r.blocks b.dirty]
    rw [Finset.union_assoc]

theorem apply_rest (rs : List DiffRecord) (b : Blocks) :
    (rs.foldl Blocks.apply b).file = b.file ∧
    (rs.foldl Blocks.apply b).fileSize = b.fileSize ∧
    (rs.foldl Blocks.apply b).length = b.length ∧
    (rs.foldl Blocks.apply b).capacity = b.capacity := by
  induction rs generalizing b with
  | nil => exact ⟨rfl, rfl, rfl, rfl⟩
  | cons r rs ih => exact ih (Blocks.apply b r)

theorem sync_map (b : Blocks) (t : Tick) : (b.sync t).1.map = b.map := rfl

theorem sync_dirty (b : Blocks) (t : Tick) : (b.sync t).1.dirty = ∅ := rfl

theorem sync_capacity (b : Blocks) (t : Tick) : (b.sync t).1.capacity = b.capacity := rfl

theorem sync_file (b : Blocks) (t : Tick) :
    (b.sync t).1.file = fun i => if i / BLOCK_SIZE ∈ b.dirty then b.map i else b.file i := rfl

theorem sync_snd (b : Blocks) (t : Tick) : (b.sync t).2 = b.write_diff t := rfl

theorem write_diff_tick (b : Blocks) (t : Tick) : (b.write_diff t).tick = t := rfl

/-- After a checkpoint the in-memory mapping agrees with the file on every
committed byte. -/
theorem sync_map_eq_file (b : Blocks) (t : Tick) (hWF : BlocksWF b) :
    ∀ i, i < b.capacity → (b.sync t).1.map i = (b.sync t).1.file i := by
  intro i hi
  obtain ⟨-, -, -, hclean, -⟩ := hWF
  show b.map i = if i / BLOCK_SIZE ∈ b.dirty then b.map i else b.file i
  by_cases h : i / BLOCK_SIZE ∈ b.dirty
  · rw [if_pos h]
  · rw [if_neg h, hclean i hi h]

/-- Checkpointing preserves well-formedness. -/
theorem sync_WF (b : Blocks) (t : Tick) (hWF : BlocksWF b) : BlocksWF (b.sync t).1 := by
  obtain ⟨hmap, hfile, hdirty, hclean, hcap⟩ := hWF
  refine ⟨hmap, ?_, ?_, ?_, hcap⟩
  · intro i
    show (if i / BLOCK_SIZE ∈ b.dirty then b.map i else b.file i) < 256
    split_ifs
    · exact hmap i
    · exact hfile i
  · intro bi hbi
    simp [sync_dirty] at hbi
  · intro i hi hmem
    exact sync_map_eq_file b t ⟨hmap, hfile, hdirty, hclean, hcap⟩ i hi

/-- The behaviour of one successful `get_mut` write: capacity, length and
file are untouched, the marked blocks are exactly `start/BS ..= stop/BS`,
bytes outside the written range keep their value, and well-formedness is
preserved as long as the write stays strictly below capacity. -/
theorem get_mut_spec (b : Blocks) (start stop : Nat) (src : Nat → Nat) (b' : Blocks)
    (hw : b.get_mut start stop src = some b') :
    b'.capacity = b.capacity ∧ b'.file = b.file ∧ b'.fileSize = b.fileSize ∧
    b'.length = b.length ∧
    b'.dirty = b.dirty ∪ Finset.Icc (start / BLOCK_SIZE) (stop / BLOCK_SIZE) ∧
    (∀ i, b'.map i = if start ≤ i ∧ i < stop then src (i - start) % 256 else b.map i) := by
  unfold Blocks.get_mut at hw
  split_ifs at hw with hc
  cases hw
  exact ⟨rfl, rfl, rfl, rfl, rfl, fun i => rfl⟩

theorem get_mut_WF (b : Blocks) (start stop : Nat) (src : Nat → Nat) (b' : Blocks)
    (hw : b.get_mut start stop src = some b') (hstop : stop < b.capacity)
    (hWF : BlocksWF b) : BlocksWF b' := by
  obtain ⟨hcap', hfile', hfs', hlen', hdirty', hmap'⟩ := get_mut_spec b start stop src b' hw
  obtain ⟨hmap, hfile, hdirty, hclean, hcap⟩ := hWF
  refine ⟨?_, ?_, ?_, ?_, ?_⟩
  · intro i
    rw [hmap' i]
    split_ifs
    · exact Nat.mod_lt _ (by omega)
    · exact hmap i
  · intro i
    rw [hfile']
    exact hfile i
  · intro bi hbi
    rw [hdirty'] at hbi
    rw [hcap']
    rcases Finset.mem_union.mp hbi with h | h
    · exact hdirty bi h
    · have hicc := Finset.mem_Icc.mp h
      rw [BLOCK_SIZE_eq] at *
      omega
  · intro i hi hmem
    rw [hcap'] at hi
    rw [hdirty'] at hmem
    rw [hmap' i, hfile']
    have hnotold : i / BLOCK_SIZE ∉ b.dirty := fun h => hmem (Finset.mem_union_left _ h)
    have hnoticc : i / BLOCK_SIZE ∉ Finset.Icc (start / BLOCK_SIZE) (stop / BLOCK_SIZE) :=
      fun h => hmem (Finset.mem_union_right _ h)
    have hrange : ¬(start ≤ i ∧ i < stop) := by
      intro hr
      apply hnoticc
      rw [Finset.mem_Icc, BLOCK_SIZE_eq]
      rw [BLOCK_SIZE_eq] at *
      omega
    rw [if_neg hrange]
    exact hclean i hi hnotold
  · rw [hcap']
    exact hcap

/-- The cumulative behaviour of a successful sequence of writes: the file
and the geometry are untouched, the dirty set only grows, bytes whose block
never became dirty are untouched, and well-formedness is preserved. -/
theorem writeMany_spec (ws : List WriteOp) (b b' : Blocks)
    (hw : b.writeMany ws = some b')
    (hws : ∀ w ∈ ws, w.start ≤ w.stop ∧ w.stop < b.capacity)
    (hWF : BlocksWF b) :
    b'.capacity = b.capacity ∧ b'.file = b.file ∧ b'.fileSize = b.fileSize ∧
    b'.length = b.length ∧ b.dirty ⊆ b'.dirty ∧
    (∀ i, i / BLOCK_SIZE ∉ b'.dirty → b'.map i = b.map i) ∧
    BlocksWF b' := by
  induction ws generalizing b with
  | nil =>
    cases hw
    exact ⟨rfl, rfl, rfl, rfl, Finset.Subset.refl _, fun i _ => rfl, hWF⟩
  | cons w ws ih =>
    rw [Blocks.writeMany, List.foldlM_cons] at hw
    rcases hbind : b.get_mut w.start w.stop w.src with _ | bw
    · rw [hbind] at hw
      cases hw
    · rw [hbind] at hw
      have hwspec := get_mut_spec b w.start w.stop w.src bw hbind
      obtain ⟨hcapw, hfilew, hfsw, hlenw, hdirtyw, hmapw⟩ := hwspec
      have hWFw : BlocksWF bw :=
        get_mut_WF b w.start w.stop w.src bw hbind (hws w (List.mem_cons_self w ws)).2 hWF
      have hwsw : ∀ v ∈ ws, v.start ≤ v.stop ∧ v.stop < bw.capacity := by
        intro v hv
        rw [hcapw]
        exact hws v (List.mem_cons_of_mem w hv)
      have := ih bw hw hwsw hWFw
      obtain ⟨hcap1, hfile1, hfs1, hlen1, hsub1, hmap1, hWF1⟩ := this
      refine ⟨hcap1.trans hcapw, hfile1.trans hfilew, hfs1.trans hfsw,
        hlen1.trans hlenw, ?_, ?_, hWF1⟩
      · intro x hx
        apply hsub1
        rw [hdirtyw]
        exact Finset.mem_union_left _ hx
      · intro i hmem
        rw [hmap1 i hmem, hmapw i]
        have hbw : i / BLOCK_SIZE ∉ bw.dirty := fun h => hmem (hsub1 h)
        rw [hdirtyw] at hbw
        have hrange : ¬(w.start ≤ i ∧ i < w.stop) := by
          intro hr
          apply hbw
          apply Finset.mem_union_right
          rw [Finset.mem_Icc, BLOCK_SIZE_eq]
          rw [BLOCK_SIZE_eq] at *
          omega
        rw [if_neg hrange]

/-- The header scan finds the first record carrying the requested tick and
returns everything after it. -/
theorem findTick_append (l rest : List DiffRecord) (r0 : DiffRecord) (t : Tick)
    (hl : ∀ r ∈ l, r.tick ≠ t) (h0 : r0.tick = t) :
    findTick (l ++ r0 :: rest) t = some rest := by
  induction l with
  | nil => simp [findTick, h0]
  | cons r l ih =>
    rw [List.cons_append, findTick, if_neg (hl r (List.mem_cons_self r l)),
      ih fun x hx => hl x (List.mem_cons_of_mem r hx)]

/-- The header scan fails when no record carries the requested tick. -/
theorem findTick_none (l : List DiffRecord) (t : Tick) (hl : ∀ r ∈ l, r.tick ≠ t) :
    findTick l t = none := by
  induction l with
  | nil => rfl
  | cons r l ih =>
    rw [findTick, if_neg (hl r (List.mem_cons_self r l)),
      ih fun x hx => hl x (List.mem_cons_of_mem r hx)]

/-! ### Claim C1 -/

/-- C1: the spec says `Blocks::new` initializes the logical length from the
file's current size and grows committed capacity to cover it, so previously
persisted bytes stay readable. The code instead hardcodes `length = 0` and
calls `grow(0)`, which `ftruncate`s a pre-existing 3 MiB file down to 1 MiB:
the logical length is 0 and the persisted byte at offset 2 MiB is destroyed.
This theorem evaluates the embedded code at that failing input. -/
theorem new_discards_existing_file :
    (Blocks.new (fun _ => 1) (3 * BLOCK_SIZE)).length = 0 ∧
    (Blocks.new (fun _ => 1) (3 * BLOCK_SIZE)).fileSize = BLOCK_SIZE ∧
    (Blocks.new (fun _ => 1) (3 * BLOCK_SIZE)).file (2 * BLOCK_SIZE) = 0 ∧
    (fun (_ : Nat) => (1 : Nat)) (2 * BLOCK_SIZE) = 1 :=
  ⟨rfl, rfl, rfl, rfl⟩

/-! ### Claim C5 -/

/-- C5 counterexample: on a fresh store (capacity `BLOCK_SIZE`), the write
`get_mut 0..BLOCK_SIZE` has `range.end` within committed capacity, yet it
marks block 1 dirty although no byte position of the range lies in block 1
(every `i < BLOCK_SIZE` has `i / BLOCK_SIZE = 0`). -/
theorem get_mut_marks_unintersected_block :
    ((Blocks.new (fun _ => 0) 0).get_mut 0 BLOCK_SIZE (fun _ => 1)).map Blocks.dirty
      = some ({0, 1} : Finset Nat) ∧
    ∀ i, i < BLOCK_SIZE → i / BLOCK_SIZE ≠ 1 := by
  constructor
  · decide
  · intro i hi
    rw [Nat.div_eq_of_lt hi]
    omega

/-- C5 (amended): a successful `get_mut start..stop` inserts exactly the
interval of block indices `start / BLOCK_SIZE ..= stop / BLOCK_SIZE` into
the dirty set. That interval contains every block intersected by the range;
conversely every marked block is either intersected or is the single extra
block `stop / BLOCK_SIZE`, and when the range is nonempty and `stop` is not
a multiple of BLOCK_SIZE the marked set is exactly the intersected set. -/
theorem get_mut_dirty_blocks (b b' : Blocks) (start stop : Nat) (src : Nat → Nat)
    (hw : b.get_mut start stop src = some b') :
    b'.dirty = b.dirty ∪ Finset.Icc (start / BLOCK_SIZE) (stop / BLOCK_SIZE) ∧
    (∀ bi, (∃ i, start ≤ i ∧ i < stop ∧ i / BLOCK_SIZE = bi) →
      bi ∈ Finset.Icc (start / BLOCK_SIZE) (stop / BLOCK_SIZE)) ∧
    (∀ bi ∈ Finset.Icc (start / BLOCK_SIZE) (stop / BLOCK_SIZE),
      (∃ i, start ≤ i ∧ i < stop ∧ i / BLOCK_SIZE = bi) ∨ bi = stop / BLOCK_SIZE) ∧
    (start < stop → ¬ BLOCK_SIZE ∣ stop →
      ∀ bi ∈ Finset.Icc (start / BLOCK_SIZE) (stop / BLOCK_SIZE),
        ∃ i, start ≤ i ∧ i < stop ∧ i / BLOCK_SIZE = bi) := by
  obtain ⟨-, -, -, -, hdirty, -⟩ := get_mut_spec b start stop src b' hw
  refine ⟨hdirty, ?_, ?_, ?_⟩
  · intro bi ⟨i, h1, h2, h3⟩
    rw [Finset.mem_Icc, BLOCK_SIZE_eq] at *
    omega
  · intro bi hbi
    rw [Finset.mem_Icc] at hbi
    by_cases hlast : bi = stop / BLOCK_SIZE
    · exact Or.inr hlast
    · left
      rcases le_or_lt start (bi * BLOCK_SIZE) with hc | hc
      · exact ⟨bi * BLOCK_SIZE, by rw [BLOCK_SIZE_eq] at *; omega,
          by rw [BLOCK_SIZE_eq] at *; omega, by rw [BLOCK_SIZE_eq] at *; omega⟩
      · exact ⟨start, le_refl start, by rw [BLOCK_SIZE_eq] at *; omega,
          by rw [BLOCK_SIZE_eq] at *; omega⟩
  · intro hne hnd bi hbi
    rw [Finset.mem_Icc] at hbi
    rcases le_or_lt start (bi * BLOCK_SIZE) with hc | hc
    · exact ⟨bi * BLOCK_SIZE, by rw [BLOCK_SIZE_eq] at *; omega,
        by rw [BLOCK_SIZE_eq] at *; omega, by rw [BLOCK_SIZE_eq] at *; omega⟩
    · exact ⟨start, le_refl start, by rw [BLOCK_SIZE_eq] at *; omega,
        by rw [BLOCK_SIZE_eq] at *; omega⟩

/-- C5 witness: the amended statement applied to the concrete write
`get_mut 0..5` on a fresh store. -/
theorem get_mut_dirty_blocks_witness :
    c5b.dirty = wB0.dirty ∪ Finset.Icc (0 / BLOCK_SIZE) (5 / BLOCK_SIZE) :=
  (get_mut_dirty_blocks wB0 c5b 0 5 (fun _ => 1) rfl).1

/-! ### Claim C8 -/

/-- C8: when the requested tick is strictly earlier than every tick recorded
in the journal, the header scan never matches, runs off the end of the log,
and `restore` returns the reported read error (`none`) without producing any
modified store: no record payload is applied. -/
theorem restore_before_first_tick (c : Column) (tgt : Tick)
    (h : ∀ r ∈ c.history, tgt.val < r.tick.val) :
    Column.restore c tgt = none := by
  have hne : ∀ r ∈ c.history, r.tick ≠ tgt := by
    intro r hr he
    have := h r hr
    rw [he] at this
    omega
  unfold Column.restore
  rw [findTick_none c.history tgt hne]
  rfl

/-- C8 witness: restoring to tick 3 on a column whose journal starts at
tick 5 reports the error. -/
theorem restore_before_first_tick_witness : Column.restore c8col ⟨3⟩ = none := by
  refine restore_before_first_tick c8col ⟨3⟩ ?_
  intro r hr
  have : r = c8rec := by
    simpa [c8col] using hr
  rw [this]
  show (3 : Nat) < 5
  omega

/-! ### Claim C10 -/

/-- C10: a checkpoint taken with an empty dirty set still appends a record
to the journal, holding the tick and an empty block list (block count 0, no
indices, no payload); applying such a record is the identity on the store,
and the restore scan parses it and succeeds with the data unchanged, so an
empty checkpoint remains a valid restore target. -/
theorem sync_empty_dirty_record (c : Column) (t : Tick)
    (hd : c.data.dirty = ∅) (hnot : ∀ r ∈ c.history, r.tick ≠ t) :
    (c.sync t).history = c.history ++ [{ tick := t, blocks := [] }] ∧
    (c.sync t).data.map = c.data.map ∧
    (∀ b : Blocks, b.apply ⟨t, []⟩ = b) ∧
    Column.restore (c.sync t) t = some (c.sync t) := by
  refine ⟨?_, rfl, fun b => rfl, ?_⟩
  · show c.history ++ [(c.data.sync t).2] = _
    rw [sync_snd, Blocks.write_diff, hd, Finset.sort_empty]
    simp
  · unfold Column.restore
    have hfind : findTick (c.sync t).history t = some [] := by
      show findTick (c.history ++ [(c.data.sync t).2]) t = some []
      exact findTick_append c.history [] ((c.data.sync t).2) t hnot (write_diff_tick c.data t)
    rw [hfind]
    rfl

/-- C10 witness: an empty-dirty checkpoint at tick 1 on a clean column with
an empty journal. -/
theorem sync_empty_dirty_record_witness :
    (c10col.sync ⟨1⟩).history = c10col.history ++ [{ tick := ⟨1⟩, blocks := [] }] ∧
    (c10col.sync ⟨1⟩).data.map = c10col.data.map ∧
    (∀ b : Blocks, b.apply ⟨⟨1⟩, []⟩ = b) ∧
    Column.restore (c10col.sync ⟨1⟩) ⟨1⟩ = some (c10col.sync ⟨1⟩) :=
  sync_empty_dirty_record c10col ⟨1⟩ rfl (by intro r hr; simp [c10col] at hr)

/-! ### Claim C9 -/

/-- C9 counterexample: on a fresh store, write the byte 7 at offset 5
(beyond the logical length 0 but within committed capacity), then
`extend_zeroed 10`. The logical length extends from 0 to 10, but reading the
newly appended 10 bytes yields 7 at offset 5, not all zeros: `extend_zeroed`
never zeroes bytes that already lie inside committed capacity. -/
theorem extend_zeroed_reads_prior_byte :
    c9b1.len = 0 ∧ c9b1.extend_zeroed 10 = some c9b2 ∧ c9b2.len = 10 ∧
    c9b2.get 0 10 = some [0, 0, 0, 0, 0, 7, 0, 0, 0, 0] :=
  ⟨rfl, rfl, rfl, rfl⟩

/-- C9 (amended): `extend_zeroed n` always succeeds and extends the logical
length by exactly `n`, but performs no zeroing itself; the appended region
reads back as all zeros provided every committed byte at or beyond the old
logical length was still zero (the invariant kept when callers never write
beyond the logical length — bytes of newly committed capacity are zero
because they are mapped from the zero-extended file). -/
theorem extend_zeroed_spec (b : Blocks) (n : Nat)
    (hfs : b.fileSize = b.capacity)
    (hz : ∀ i, b.length ≤ i → i < b.capacity → b.map i = 0) :
    b.extend_zeroed n = some (b.growF (b.length + n)) ∧
    (b.growF (b.length + n)).length = b.length + n ∧
    (b.growF (b.length + n)).get b.length (b.length + n)
      = some ((List.range n).map fun _ => 0) := by
  refine ⟨?_, ?_, ?_⟩
  · rw [Blocks.extend_zeroed, Blocks.grow, Blocks.len, if_pos (Nat.le_add_right _ _)]
  · rw [Blocks.growF]
    split_ifs <;> rfl
  · have halign : b.length + n < (b.length + n) + BLOCK_SIZE - (b.length + n) % BLOCK_SIZE := by
      rw [BLOCK_SIZE_eq]
      omega
    have hmap0 : ∀ k, k < n → (b.growF (b.length + n)).map (b.length + k) = 0 := by
      intro k hk
      have hlt : b.length + k < b.length + n + BLOCK_SIZE - (b.length + n) % BLOCK_SIZE := by
        omega
      rw [Blocks.growF]
      split_ifs with hcap
      · exact hz (b.length + k) (Nat.le_add_right _ _) (by omega)
      · show (if b.capacity ≤ b.length + k ∧
            b.length + k < b.length + n + BLOCK_SIZE - (b.length + n) % BLOCK_SIZE
            then (if b.length + k < b.length + n + BLOCK_SIZE - (b.length + n) % BLOCK_SIZE
              then (if b.length + k < b.fileSize then b.file (b.length + k) else 0) else 0)
            else b.map (b.length + k)) = 0
        by_cases hcapk : b.capacity ≤ b.length + k
        · rw [if_pos ⟨hcapk, hlt⟩, if_pos hlt, if_neg (by rw [hfs]; omega)]
        · rw [if_neg (fun hc => hcapk hc.1)]
          exact hz (b.length + k) (Nat.le_add_right _ _) (by omega)
    have hcap' : b.length + n ≤ (b.growF (b.length + n)).capacity := by
      rw [Blocks.growF]
      split_ifs with hcap
      · show b.length + n ≤ b.capacity
        omega
      · show b.length + n ≤ (b.length + n) + BLOCK_SIZE - (b.length + n) % BLOCK_SIZE
        omega
    rw [Blocks.get, if_pos ⟨hcap', Nat.le_add_right _ _⟩]
    congr 1
    rw [Nat.add_sub_cancel_left]
    apply List.map_congr_left
    intro k hk
    exact hmap0 k (List.mem_range.mp hk)

/-- C9 witness: the amended statement applied to a fresh store (whose
committed bytes are all zero) extended by 3 bytes. -/
theorem extend_zeroed_spec_witness :
    wB0.extend_zeroed 3 = some (wB0.growF (wB0.length + 3)) ∧
    (wB0.growF (wB0.length + 3)).length = wB0.length + 3 ∧
    (wB0.growF (wB0.length + 3)).get wB0.length (wB0.length + 3)
      = some ((List.range 3).map fun _ => 0) := by
  refine extend_zeroed_spec wB0 3 rfl ?_
  intro i h1 h2
  show (if (0 ≤ i ∧ i < 1048576) then
      (if i < 1048576 then (if i < 0 then (0 : Nat) else 0) else 0) else 0) = 0
  split_ifs <;> rfl

/-! ### Claim C4 -/

/-- C4: every delta byte of the record emitted at a checkpoint equals
`old - new` with wrapping modulo-256 subtraction (`old` the byte of the
on-disk snapshot, `new` the in-memory byte); `apply` adds each delta byte
back onto the live block with wrapping modulo-256 addition; and on byte
values both operations are total, stay below 256, and are mutually inverse
(so neither can fail for any pair of byte values). -/
theorem diff_delta_formula (b : Blocks) (t : Tick) :
    (∀ bi d, (bi, d) ∈ (b.write_diff t).blocks →
       ∀ j, d j = wsub (b.file (bi * BLOCK_SIZE + j)) (b.map (bi * BLOCK_SIZE + j))) ∧
    (∀ (m : Nat → Nat) (bi : Nat) (d : Nat → Nat) (i : Nat),
       bi * BLOCK_SIZE ≤ i → i < (bi + 1) * BLOCK_SIZE →
       applyBlock m bi d i = wadd (m i) (d (i - bi * BLOCK_SIZE))) ∧
    (∀ x y, x < 256 → y < 256 → wsub x y < 256 ∧ wadd x y < 256 ∧ wadd y (wsub x y) = x) := by
  refine ⟨?_, ?_, ?_⟩
  · intro bi d hmem j
    rw [Blocks.write_diff] at hmem
    obtain ⟨a, ha, he⟩ := List.mem_map.mp hmem
    have h1 : a = bi := congrArg Prod.fst he
    have h2 : (fun j => wsub (b.file (a * BLOCK_SIZE + j)) (b.map (a * BLOCK_SIZE + j))) = d :=
      congrArg Prod.snd he
    subst h1
    rw [← h2]
  · intro m bi d i h1 h2
    rw [applyBlock, if_pos ⟨h1, h2⟩]
  · intro x y hx hy
    unfold wsub wadd
    refine ⟨by omega, by omega, by omega⟩

/-- C4 witness: the formula, the apply step and the inverse law evaluated on
the concrete single-dirty-block store `c4b` (file bytes 3, memory bytes
250). -/
theorem diff_delta_formula_witness :
    c4d 5 = wsub (c4b.file (0 * BLOCK_SIZE + 5)) (c4b.map (0 * BLOCK_SIZE + 5)) ∧
    applyBlock c4b.map 0 c4d 5 = wadd (c4b.map 5) (c4d (5 - 0 * BLOCK_SIZE)) ∧
    (wsub 3 250 < 256 ∧ wadd 3 250 < 256 ∧ wadd 250 (wsub 3 250) = 3) := by
  obtain ⟨h1, h2, h3⟩ := diff_delta_formula c4b ⟨1⟩
  refine ⟨h1 0 c4d ?_ 5, h2 c4b.map 0 c4d 5 (by omega) (by rw [BLOCK_SIZE_eq]; omega),
    h3 3 250 (by omega) (by omega)⟩
  have hblocks : (c4b.write_diff ⟨1⟩).blocks = [(0, c4d)] := by
    rw [Blocks.write_diff]
    show (({0} : Finset Nat).sort (· ≤ ·)).map _ = _
    rw [Finset.sort_singleton]
    rfl
  rw [hblocks]
  exact List.mem_singleton.mpr rfl

/-! ### Claim C3 -/

theorem Blocks_eq (a b : Blocks) (h1 : a.file = b.file) (h2 : a.fileSize = b.fileSize)
    (h3 : a.map = b.map) (h4 : a.dirty = b.dirty) (h5 : a.length = b.length)
    (h6 : a.capacity = b.capacity) : a = b := by
  cases a
  cases b
  simp_all

theorem matchedSum_perm (L1 L2 : List (Nat × (Nat → Nat))) (h : L1.Perm L2) (bi j : Nat) :
    matchedSum L1 bi j = matchedSum L2 bi j :=
  ((h.filter _).map _).sum_eq

theorem sumRecord_keys (t : Tick) (rs : List DiffRecord) :
    (sumRecord t rs).blocks.map Prod.fst = ((recPairs rs).map Prod.fst).dedup := by
  rw [sumRecord, List.map_map]
  exact List.map_id _

/-- C3: applying a set of diff records to the live data in any permutation
of their order yields the same store, and equals applying the single record
holding, per block and per byte, the wrapping sum of all their deltas. -/
theorem apply_perm_and_sum (b : Blocks) (t : Tick) (rs1 rs2 : List DiffRecord)
    (h : rs1.Perm rs2) :
    rs1.foldl Blocks.apply b = rs2.foldl Blocks.apply b ∧
    rs1.foldl Blocks.apply b = b.apply (sumRecord t rs1) := by
  have hpairs := recPairs_perm h
  constructor
  · obtain ⟨hf1, hs1, hl1, hc1⟩ := apply_rest rs1 b
    obtain ⟨hf2, hs2, hl2, hc2⟩ := apply_rest rs2 b
    refine Blocks_eq _ _ (hf1.trans hf2.symm) (hs1.trans hs2.symm) ?_ ?_
      (hl1.trans hl2.symm) (hc1.trans hc2.symm)
    · funext i
      rw [apply_map, apply_map]
      have hmem : i / BLOCK_SIZE ∈ (recPairs rs1).map Prod.fst ↔
          i / BLOCK_SIZE ∈ (recPairs rs2).map Prod.fst := (hpairs.map Prod.fst).mem_iff
      have hsum := matchedSum_perm _ _ hpairs (i / BLOCK_SIZE) (i % BLOCK_SIZE)
      by_cases hm : i / BLOCK_SIZE ∈ (recPairs rs1).map Prod.fst
      · rw [if_pos hm, if_pos (hmem.mp hm), hsum]
      · rw [if_neg hm, if_neg (fun hx => hm (hmem.mpr hx))]
    · rw [apply_dirty, apply_dirty]
      have : ((recPairs rs1).map Prod.fst).toFinset = ((recPairs rs2).map Prod.fst).toFinset := by
        ext x
        simp [List.mem_toFinset, (hpairs.map Prod.fst).mem_iff]
      rw [this]
  · have hone : ∀ i, (b.apply (sumRecord t rs1)).map i =
        if i / BLOCK_SIZE ∈ (sumRecord t rs1).blocks.map Prod.fst then
          (b.map i + matchedSum (sumRecord t rs1).blocks (i / BLOCK_SIZE) (i % BLOCK_SIZE)) % 256
        else b.map i := fun i => foldl_applyBlock _ b.map i
    refine Blocks_eq _ _ (apply_rest rs1 b).1 (apply_rest rs1 b).2.1 ?_ ?_
      (apply_rest rs1 b).2.2.1 (apply_rest rs1 b).2.2.2
    · funext i
      rw [apply_map, hone i, sumRecord_keys]
      by_cases hm : i / BLOCK_SIZE ∈ (recPairs rs1).map Prod.fst
      · rw [if_pos hm, if_pos (List.mem_dedup.mpr hm)]
        have hnd : ((sumRecord t rs1).blocks.map Prod.fst).Nodup := by
          rw [sumRecord_keys]
          exact List.nodup_dedup _
        have hpm : (i / BLOCK_SIZE,
            fun j => matchedSum (recPairs rs1) (i / BLOCK_SIZE) j % 256)
            ∈ (sumRecord t rs1).blocks :=
          List.mem_map_of_mem _ (List.mem_dedup.mpr hm)
        rw [matchedSum_of_nodup _ _ _ hnd hpm]
        omega
      · rw [if_neg hm, if_neg (fun hx => hm (List.mem_dedup.mp hx))]
    · rw [apply_dirty]
      show _ = (sumRecord t rs1).blocks.foldl (fun d p => insert p.1 d) b.dirty
      rw [foldl_insert_dirty, sumRecord_keys]
      have : (((recPairs rs1).map Prod.fst).dedup).toFinset
          = ((recPairs rs1).map Prod.fst).toFinset := by
        ext x
        simp [List.mem_toFinset, List.mem_dedup]
      rw [this]

/-- C3 witness: two concrete records applied in both orders to the store
`c4b`, and their summed single record. -/
theorem apply_perm_and_sum_witness :
    [c3r1, c3r2].foldl Blocks.apply c4b = [c3r2, c3r1].foldl Blocks.apply c4b ∧
    [c3r1, c3r2].foldl Blocks.apply c4b = c4b.apply (sumRecord ⟨7⟩ [c3r1, c3r2]) :=
  apply_perm_and_sum c4b ⟨7⟩ [c3r1, c3r2] [c3r2, c3r1] (List.Perm.swap c3r2 c3r1 [])

/-! ### Claim C2 -/

theorem wB0_map (i : Nat) : wB0.map i = 0 := by
  show (if 0 ≤ i ∧ i < BLOCK_SIZE then
      (if i < BLOCK_SIZE then (if i < 0 then (0 : Nat) else 0) else 0) else 0) = 0
  split_ifs <;> rfl

theorem wB0_file (i : Nat) : wB0.file i = 0 := by
  show (if i < BLOCK_SIZE then (if i < 0 then (0 : Nat) else 0) else 0) = 0
  split_ifs <;> rfl

theorem wB0_WF : BlocksWF wB0 := by
  refine ⟨fun i => ?_, fun i => ?_, fun bi hbi => ?_, fun i hi hmem => ?_, ?_⟩
  · rw [wB0_map]
    omega
  · rw [wB0_file]
    omega
  · have hd : wB0.dirty = ∅ := rfl
    rw [hd] at hbi
    simp at hbi
  · rw [wB0_map, wB0_file]
  · exact dvd_refl BLOCK_SIZE

/-- C2: undo correctness. Starting from a well-formed column, take
checkpoint `t0` (leaving data state S1), mutate the store by any successful
sequence of in-capacity writes (state S2), take checkpoint `t1` (state S3),
then restore to `t0`: the in-memory data is byte-identical to S1, the state
as recorded immediately after checkpoint `t0`. -/
theorem restore_rewinds_to_checkpoint
    (c0 : Column) (t0 t1 : Tick) (ws : List WriteOp) (b2 : Blocks) (c4 : Column)
    (hWF : BlocksWF c0.data)
    (h01 : t0.val < t1.val)
    (hnot : ∀ r ∈ c0.history, r.tick ≠ t0)
    (hws : ∀ w ∈ ws, w.start ≤ w.stop ∧ w.stop < (c0.sync t0).data.capacity)
    (hb2 : (c0.sync t0).data.writeMany ws = some b2)
    (hres : (Column.sync ⟨b2, (c0.sync t0).history⟩ t1).restore t0 = some c4) :
    ∀ i, c4.data.map i = (c0.sync t0).data.map i := by
  have hWF1 : BlocksWF (c0.sync t0).data := sync_WF c0.data t0 hWF
  have heq1 : ∀ j, j < (c0.sync t0).data.capacity →
      (c0.sync t0).data.map j = (c0.sync t0).data.file j :=
    sync_map_eq_file c0.data t0 hWF
  obtain ⟨hcap2, hfile2, hfs2, hlen2, hsub2, hunt2, hWF2⟩ :=
    writeMany_spec ws (c0.sync t0).data b2 hb2 hws hWF1
  unfold Column.restore at hres
  have hist : (Column.sync ⟨b2, (c0.sync t0).history⟩ t1).history
      = c0.history ++ ((c0.data.sync t0).2 :: [(b2.sync t1).2]) := by
    show (c0.history ++ [(c0.data.sync t0).2]) ++ [(b2.sync t1).2] = _
    rw [List.append_assoc]
    rfl
  rw [hist, findTick_append c0.history [(b2.sync t1).2] (c0.data.sync t0).2 t0 hnot
    (write_diff_tick c0.data t0), Option.map_some'] at hres
  obtain rfl := (Option.some.inj hres).symm
  intro i
  show ((b2.sync t1).1.apply (b2.write_diff t1)).map i = (c0.sync t0).data.map i
  have hkeys : (b2.write_diff t1).blocks.map Prod.fst = b2.dirty.sort (· ≤ ·) := by
    rw [Blocks.write_diff, List.map_map]
    exact List.map_id _
  have happ : ((b2.sync t1).1.apply (b2.write_diff t1)).map i =
      if i / BLOCK_SIZE ∈ (b2.write_diff t1).blocks.map Prod.fst then
        ((b2.sync t1).1.map i +
          matchedSum (b2.write_diff t1).blocks (i / BLOCK_SIZE) (i % BLOCK_SIZE)) % 256
      else (b2.sync t1).1.map i := foldl_applyBlock _ _ i
  rw [happ]
  have hsmap : (b2.sync t1).1.map = b2.map := sync_map b2 t1
  by_cases hd : i / BLOCK_SIZE ∈ b2.dirty
  · have hdmem : i / BLOCK_SIZE ∈ (b2.write_diff t1).blocks.map Prod.fst := by
      rw [hkeys, Finset.mem_sort]
      exact hd
    rw [if_pos hdmem, hsmap]
    have hnd : ((b2.write_diff t1).blocks.map Prod.fst).Nodup := by
      rw [hkeys]
      exact b2.dirty.sort_nodup _
    have hpm : (i / BLOCK_SIZE, fun j => wsub (b2.file (i / BLOCK_SIZE * BLOCK_SIZE + j))
        (b2.map (i / BLOCK_SIZE * BLOCK_SIZE + j))) ∈ (b2.write_diff t1).blocks := by
      rw [Blocks.write_diff]
      exact List.mem_map_of_mem _ ((Finset.mem_sort _).mpr hd)
    have hms : matchedSum (b2.write_diff t1).blocks (i / BLOCK_SIZE) (i % BLOCK_SIZE) =
        wsub (b2.file (i / BLOCK_SIZE * BLOCK_SIZE + i % BLOCK_SIZE))
          (b2.map (i / BLOCK_SIZE * BLOCK_SIZE + i % BLOCK_SIZE)) :=
      matchedSum_of_nodup _ _ _ hnd hpm (i % BLOCK_SIZE)
    have hrecon : i / BLOCK_SIZE * BLOCK_SIZE + i % BLOCK_SIZE = i := by
      rw [BLOCK_SIZE_eq]
      omega
    rw [hms, hrecon]
    have hcapi : i < (c0.sync t0).data.capacity := by
      have hcom := hWF2.2.2.1 (i / BLOCK_SIZE) hd
      rw [hcap2] at hcom
      rw [BLOCK_SIZE_eq] at hcom
      omega
    have hfi : b2.file i = (c0.sync t0).data.file i := congrFun hfile2 i
    have hfm : (c0.sync t0).data.file i = (c0.sync t0).data.map i := (heq1 i hcapi).symm
    have hm2 : b2.map i < 256 := hWF2.1 i
    have hm1 : (c0.sync t0).data.map i < 256 := hWF1.1 i
    rw [hfi, hfm]
    unfold wsub
    omega
  · have hdmem : i / BLOCK_SIZE ∉ (b2.write_diff t1).blocks.map Prod.fst := by
      rw [hkeys, Finset.mem_sort]
      exact hd
    rw [if_neg hdmem, hsmap]
    exact hunt2 i hd

/-- C2 witness: a fresh column checkpointed at tick 1, mutated by one write,
checkpointed at tick 2 and restored to tick 1; byte 0 is back to its
post-checkpoint-1 value. -/
theorem restore_rewinds_to_checkpoint_witness :
    c2c4.data.map 0 = (c2c0.sync ⟨1⟩).data.map 0 := by
  refine restore_rewinds_to_checkpoint c2c0 ⟨1⟩ ⟨2⟩ c2ws c2b2 c2c4 wB0_WF (by decide)
    ?_ ?_ rfl rfl 0
  · intro r hr
    simp [c2c0] at hr
  · intro w hw
    simp only [c2ws, List.mem_singleton] at hw
    subst hw
    refine ⟨by decide, ?_⟩
    show (1 : Nat) < BLOCK_SIZE
    rw [BLOCK_SIZE_eq]
    omega

/-! ### Claims C6 and C7 -/

theorem TableInv_empty {α : Type} : TableInv (Table.empty : Table α) := by
  refine ⟨List.nodup_nil, ?_, rfl, ?_⟩
  · intro i hi
    simp [Table.empty] at hi
  · intro i h
    simp [Table.empty] at h

theorem insert_inv {α : Type} (t : Table α) (a : α) (t' : Table α) (idx : GenerationalIndex)
    (hInv : TableInv t) (h : t.insert a = some (t', idx)) : TableInv t' := by
  obtain ⟨hnd, hbound, hlen, hpar⟩ := hInv
  unfold Table.insert at h
  cases hfree : t.free with
  | nil =>
    rw [hfree] at h
    obtain ⟨rfl, -⟩ := Prod.mk.injEq .. ▸ Option.some.inj h
    refine ⟨List.nodup_nil, ?_, ?_, ?_⟩
    · intro i hi
      simp at hi
    · simp [hlen]
    · intro i hi
      simp only [List.mem_nil_iff, iff_false]
      by_cases hold : i < t.generations.length
      · rw [List.getElem_append_left hold]
        have := hpar i hold
        rw [hfree] at this
        simp at this
        omega
      · have hieq : i = t.generations.length := by
          simp at hi
          omega
        subst hieq
        rw [List.getElem_append_right (le_refl _)]
        simp
  | cons index rest =>
    have hidx : index < t.generations.length := hbound index (hfree ▸ List.mem_cons_self ..)
    rw [hfree] at h
    simp only [List.getElem?_eq_getElem hidx] at h
    rw [if_pos (show index < t.attrs.length by omega)] at h
    obtain ⟨rfl, -⟩ := Prod.mk.injEq .. ▸ Option.some.inj h
    have hnd' := List.nodup_cons.mp (hfree ▸ hnd)
    refine ⟨hnd'.2, ?_, ?_, ?_⟩
    · intro i hi
      rw [List.length_set]
      exact hbound i (hfree ▸ List.mem_cons_of_mem index hi)
    · rw [List.length_set, List.length_set, hlen]
    · intro i hi
      rw [List.length_set] at hi
      have hgeno : (t.generations[index]).val % 2 = 0 := by
        rw [hpar index hidx, hfree]
        exact List.mem_cons_self ..
      by_cases hie : index = i
      · subst hie
        rw [List.getElem_set, if_pos rfl]
        have hadv : (t.generations[index]).advance.val = t.generations[index].val + 1 := rfl
        constructor
        · intro hb
          rw [hadv] at hb
          omega
        · intro hb
          exact absurd hb hnd'.1
      · rw [List.getElem_set, if_neg hie]
        rw [hpar i hi, hfree]
        constructor
        · intro hb
          rcases List.mem_cons.mp hb with hc | hc
          · exact absurd hc.symm hie
          · exact hc
        · exact List.mem_cons_of_mem index

theorem remove_inv {α : Type} (t : Table α) (idx : GenerationalIndex) (t' : Table α)
    (hInv : TableInv t) (h : t.remove idx = some t') : TableInv t' := by
  obtain ⟨hnd, hbound, hlen, hpar⟩ := hInv
  unfold Table.remove at h
  split_ifs at h with hdead
  rcases hg : t.generations[idx.index]? with _ | g
  · rw [hg] at h
    exact Option.noConfusion h
  · rw [hg] at h
    obtain ⟨hidx, hgeq⟩ := List.getElem?_eq_some.mp hg
    have h2 : (if idx.generation = g then
        some ({ free := idx.index :: t.free
                generations := t.generations.set idx.index g.advance
                attrs := t.attrs } : Table α) else none) = some t' := h
    split_ifs at h2 with heq
    obtain rfl := Option.some.inj h2
    have hodd : g.val % 2 = 1 := by
      have hb : (idx.generation.is_dead) = false := by
        rw [Bool.eq_false_iff]
        exact hdead
      unfold Generation.is_dead at hb
      rw [← heq]
      simp at hb
      omega
    have hfree : idx.index ∉ t.free := by
      intro hmem
      have := (hpar idx.index hidx).mpr hmem
      rw [hgeq] at this
      omega
    refine ⟨List.nodup_cons.mpr ⟨hfree, hnd⟩, ?_, ?_, ?_⟩
    · intro i hi
      rw [List.length_set]
      rcases List.mem_cons.mp hi with hc | hc
      · rw [hc]
        exact hidx
      · exact hbound i hc
    · rw [List.length_set, hlen]
    · intro i hi
      rw [List.length_set] at hi
      by_cases hie : idx.index = i
      · subst hie
        rw [List.getElem_set, if_pos rfl]
        have hadv : g.advance.val = g.val + 1 := rfl
        constructor
        · intro hb
          exact List.mem_cons_self ..
        · intro hb
          rw [hadv]
          omega
      · rw [List.getElem_set, if_neg hie]
        rw [hpar i hi]
        simp only [List.mem_cons]
        constructor
        · exact Or.inr
        · intro hb
          rcases hb with hc | hc
          · exact absurd hc.symm hie
          · exact hc

theorem run_inv {α : Type} (ops : List (TableOp α)) (t t' : Table α)
    (hInv : TableInv t) (h : Table.run ops t = some t') : TableInv t' := by
  induction ops generalizing t with
  | nil =>
    obtain rfl := Option.some.inj h
    exact hInv
  | cons op ops ih =>
    rw [Table.run, List.foldlM_cons] at h
    rcases hstep : t.step op with _ | tm
    · rw [hstep] at h
      cases h
    · rw [hstep] at h
      refine ih tm ?_ h
      cases op with
      | ins a =>
        have hstep2 : (t.insert a).map Prod.fst = some tm := hstep
        rcases hins : t.insert a with _ | ⟨t2, idx2⟩
        · rw [hins] at hstep2
          exact Option.noConfusion hstep2
        · rw [hins] at hstep2
          obtain rfl := Option.some.inj hstep2
          exact insert_inv t a t2 idx2 hInv hins
      | rem idx =>
        have hstep2 : t.remove idx = some tm := hstep
        exact remove_inv t idx tm hInv hstep2

/-- C6: generation parity. After every sequence of insert and remove
operations run from the initial table, a slot's stored generation is even
(`is_dead`) exactly when the slot is dead, i.e. on the free list; moreover a
freshly appended slot receives generation 1, and the starting generation 0
is dead. -/
theorem generation_parity {α : Type} :
    (∀ (ops : List (TableOp α)) (t : Table α), Table.run ops Table.empty = some t →
      ∀ i, (h : i < t.generations.length) →
        ((t.generations[i]).is_dead = true ↔ i ∈ t.free)) ∧
    (∀ (t : Table α) (a : α), t.free = [] →
      (t.insert a).map (fun p => p.2.generation) = some ⟨1⟩) ∧
    (Generation.mk 0).is_dead = true := by
  refine ⟨?_, ?_, rfl⟩
  · intro ops t hrun i hi
    obtain ⟨-, -, -, hpar⟩ := run_inv ops Table.empty t TableInv_empty hrun
    have hb : (t.generations[i]).is_dead = true ↔ (t.generations[i]).val % 2 = 0 := by
      unfold Generation.is_dead
      simp
    rw [hb, hpar i hi]
  · intro t a hfree
    unfold Table.insert
    rw [hfree]
    rfl

/-- C6 witness: one insert from the empty table yields the table `c6t`
whose single slot carries the odd generation 1 and is off the free list. -/
theorem generation_parity_witness :
    Table.run [TableOp.ins 5] (Table.empty : Table Nat) = some c6t ∧
    ((c6t.generations.get ⟨0, by simp [c6t]⟩).is_dead = true ↔ 0 ∈ c6t.free) := by
  constructor
  · rfl
  · exact (@generation_parity Nat).1 [TableOp.ins 5] c6t rfl 0 (by simp [c6t])

/-- C7: stale-handle rejection. For every table state, `remove` called with
a handle whose generation is dead, or whose generation differs from the
slot's stored generation (including a slot that does not exist), takes the
assertion failure path and produces no mutated table: the generation
column, the attribute column and the free list are exactly those of a state
it never returns. -/
theorem remove_stale_handle {α : Type} (t : Table α) (idx : GenerationalIndex)
    (h : idx.generation.is_dead = true ∨
      (∀ g, t.generations[idx.index]? = some g → g ≠ idx.generation)) :
    t.remove idx = none := by
  unfold Table.remove
  by_cases hdead : idx.generation.is_dead
  · rw [if_pos hdead]
  · rw [if_neg hdead]
    rcases h with h | h
    · exact absurd h hdead
    · rcases hg : t.generations[idx.index]? with _ | g
      · rfl
      · show (if idx.generation = g then _ else none) = none
        rw [if_neg (fun he => h g hg he.symm)]

/-- C7 witness: removing with handle generation 3 from a slot whose stored
generation is 1 fails. -/
theorem remove_stale_handle_witness : c7t.remove ⟨⟨3⟩, 0⟩ = none := by
  refine remove_stale_handle c7t ⟨⟨3⟩, 0⟩ (Or.inr ?_)
  intro g hg he
  simp [c7t] at hg
  subst hg
  exact absurd he (by decide)
